import Mathlib

/-
Verification of the price-watcher monitoring core.

Shallow embedding of the repository code:
- the SQLite price table for one product is a list of price points in
  insertion (rowid) order;
- timestamps are naturals (the TEXT timestamps of the code are totally
  ordered strings and only their order matters here);
- prices are rationals (the code uses Python floats; the arithmetic the
  claims mention is exact on the inputs considered);
- fallible operations take an explicit error flag or return Except/Option.
-/

namespace PriceWatcher

/-! Data model: one row of the prices table (src/app/crud/sqlite_crud.py,
init_db): a timestamp and a price, for a fixed product. -/

structure PriceEntry where
  ts : Nat
  price : ℚ
  deriving DecidableEq

/-- Order of rows by timestamp, the ORDER BY timestamp ASC of the code. -/
def tsLE (a b : PriceEntry) : Prop := a.ts ≤ b.ts

instance : DecidableRel tsLE := fun a b => inferInstanceAs (Decidable (a.ts ≤ b.ts))

instance : IsTotal PriceEntry tsLE := ⟨fun a b => Nat.le_total a.ts b.ts⟩

instance : IsTrans PriceEntry tsLE := ⟨fun _ _ _ hab hbc => Nat.le_trans hab hbc⟩

/-! Series store (class SQLitePriceCRUD, src/app/crud/sqlite_crud.py).
The database for one product is the list of its rows in insertion order;
AUTOINCREMENT ids are the list positions. -/

/-- save_price_entry: INSERT of one row; the new row gets the greatest id. -/
def save_price_entry (db : List PriceEntry) (e : PriceEntry) : List PriceEntry :=
  db ++ [e]

/-- get_all_price_entries_df: SELECT timestamp, price ... ORDER BY timestamp ASC. -/
def get_all_price_entries_df (db : List PriceEntry) : List PriceEntry :=
  List.insertionSort tsLE db

/-- get_latest_price_entry: SELECT ... ORDER BY id DESC LIMIT 1, so the row
of greatest insertion order, none when the table has no row for the product. -/
def get_latest_price_entry (db : List PriceEntry) : Option PriceEntry :=
  db.getLast?

/-- delete_prices_for_product: DELETE FROM prices WHERE product_id = ?,
committed on its own connection. -/
def delete_prices_for_product (_db : List PriceEntry) : List PriceEntry :=
  []

/-- bulk_insert_prices_for_product: executemany INSERT on its own connection;
on sqlite3.Error the transaction is rolled back, so the table is unchanged. -/
def bulk_insert_prices_for_product (db : List PriceEntry) (entries : List PriceEntry)
    (sqlError : Bool) : List PriceEntry :=
  if sqlError then db else db ++ entries

/-- The replacement performed by clean_price_history
(src/app/services/price_service.py lines 133 to 135): a committed delete
followed by a separate bulk insert; the two are not one transaction. -/
def replace_all (db kept : List PriceEntry) (insertError : Bool) : List PriceEntry :=
  bulk_insert_prices_for_product (delete_prices_for_product db) kept insertError

/-! Statistics (get_price_stats, src/app/crud/sqlite_crud.py lines 104 to 134). -/

/-- Floor of a rational, computed from numerator and denominator. -/
def ratFloor (q : ℚ) : ℤ := q.num / q.den

/-- Python round(x, 2): round half to even at two decimal places. -/
def round2 (q : ℚ) : ℚ :=
  (let s := q * 100
   let f := ratFloor s
   let r := s - (f : ℚ)
   if r < 1 / 2 then (f : ℚ)
   else if 1 / 2 < r then (f : ℚ) + 1
   else if f % 2 = 0 then (f : ℚ) else (f : ℚ) + 1) / 100

/-- Result shape of get_price_stats. -/
structure PriceStats where
  total_entries : Nat
  min_price : Option ℚ
  max_price : Option ℚ
  average_price : Option ℚ
  deriving DecidableEq

/-- get_price_stats: COUNT, MIN, MAX, AVG over WHERE price IS NOT NULL,
the all-null record when the count is zero, AVG rounded to 2 decimals. -/
def get_price_stats (rows : List (Option ℚ)) : PriceStats :=
  let vals := rows.filterMap id
  if vals.length = 0 then ⟨0, none, none, none⟩
  else ⟨vals.length, vals.min?, vals.max?, some (round2 (vals.sum / vals.length))⟩

/-! Per-product processing (_process_single_product,
src/app/services/price_service.py lines 21 to 76). The scraped price is the
input; the product state is its series plus the last_checked_at column. -/

/-- The mutable per-product state touched by one check. -/
structure ProductState where
  series : List PriceEntry
  last_checked_at : Option Nat
  deriving DecidableEq

/-- What one per-product check did: final state, whether a point was saved,
and the discount percentage of the notification sent, if any. -/
structure StepResult where
  state : ProductState
  saved : Bool
  notif : Option ℚ
  deriving DecidableEq

/-- _process_single_product: on a null price only last_checked_at is written;
otherwise the previous latest row is read, the new point saved,
last_checked_at written, and a notification sent exactly when the new price
is strictly below the previous one, carrying the discount percentage. -/
def process_single_product (st : ProductState) (scraped : Option ℚ) (now : Nat) :
    StepResult :=
  match scraped with
  | none => ⟨⟨st.series, some now⟩, false, none⟩
  | some current_price =>
    let previous := (get_latest_price_entry st.series).map PriceEntry.price
    let series1 := save_price_entry st.series ⟨now, current_price⟩
    let notif : Option ℚ :=
      match previous with
      | some p => if current_price < p then some ((p - current_price) / p * 100) else none
      | none => none
    ⟨⟨series1, some now⟩, true, notif⟩

/-! The pass over the product list (process_new_price_iteration,
src/app/services/price_service.py lines 97 to 101) and log_message
(src/app/utils/logging_utils.py line 5). -/

/-- Python exceptions the pass can raise. -/
inductive PyExc
  | typeError
  deriving DecidableEq

/-- Arguments passed to log_message in the pass. -/
inductive LogMsg
  | errorProcessing (pid : Nat)
  | levelTag
  deriving DecidableEq

/-- log_message as declared in src/app/utils/logging_utils.py: a function of
exactly one positional parameter. Python checks arity at call time, so a
call with a different number of arguments raises TypeError before the body
runs. -/
def log_message (args : List LogMsg) : Except PyExc Unit :=
  if args.length = 1 then Except.ok () else Except.error PyExc.typeError

/-- The per-product loop of process_new_price_iteration. Each product is a
pair of its id and whether _process_single_product raises on it. A healthy
product is processed and recorded; for a raising product the except handler
calls log_message with TWO positional arguments, the message and the string
ERROR, exactly as in the source. An uncaught exception aborts the pass. -/
def process_products_pass (products : List (Nat × Bool)) : Except PyExc (List Nat) :=
  match products with
  | [] => Except.ok []
  | (pid, raisesExc) :: rest =>
    if raisesExc then
      match log_message [LogMsg.errorProcessing pid, LogMsg.levelTag] with
      | Except.ok _ => process_products_pass rest
      | Except.error e => Except.error e
    else
      (process_products_pass rest).map (fun l => pid :: l)

/-! The monitor loop schedule (watch_prices_task,
src/app/tasks/price_monitor_task.py lines 12 to 23). -/

/-- Events of one loop iteration, in order. -/
inductive LoopEvent
  | checkPass
  | cleanHistory
  deriving DecidableEq

/-- iterations_per_day as computed by the code: (24*60*60)/DELAY_SECONDS for
a positive delay, else 1440, then truncated by int(). For 0 < d <= 86400 the
float quotient is exact enough that int() equals natural floor division. -/
def iterations_per_day (delay_seconds : Int) : Nat :=
  if 0 < delay_seconds then 86400 / delay_seconds.toNat else 1440

/-- Whether the iteration-counter test iteration % int(iterations_per_day) == 0
of the code fires on this iteration. -/
def clean_this_iteration (delay_seconds : Int) (iteration : Nat) : Bool :=
  iteration % iterations_per_day delay_seconds == 0

/-- One iteration of the while-loop body: the check pass runs, then
clean_price_history exactly when the counter test fires. -/
def iteration_events (delay_seconds : Int) (iteration : Nat) : List LoopEvent :=
  [LoopEvent.checkPass] ++
    (if clean_this_iteration delay_seconds iteration then [LoopEvent.cleanHistory] else [])

/-- Modelled from the spec: the spec computes the compaction period as
round(seconds_per_day / check_period); this is that rounding (Python round,
half to even) evaluated exactly on the quotient a / b. -/
def spec_round_of_div (a b : Nat) : Nat :=
  let q := a / b
  let r := a % b
  if 2 * r < b then q
  else if b < 2 * r then q + 1
  else if q % 2 = 0 then q else q + 1

/-! Extractor (get_product_info, src/app/services/scraping_service.py).
The page fetch and CSS selection are the environment: the inputs here are
the text of the first match of each selector, none when nothing matches. -/

/-- Characters kept by the price cleaning filter of the code: digits, the
dot and the comma. -/
def keepPriceChar (c : Char) : Bool := c.isDigit || c == '.' || c == ','

/-- Python str.strip(): drop whitespace from both ends. -/
def pyStrip (s : String) : String :=
  String.mk (((s.data.dropWhile Char.isWhitespace).reverse.dropWhile
    Char.isWhitespace).reverse)

/-- The price text cleaning of the code: keep only digits, dot and comma,
then replace every comma by a dot. -/
def cleanPriceText (s : String) : String :=
  String.mk ((s.data.filter keepPriceChar).map (fun c => if c == ',' then '.' else c))

/-- Value of a digit string. -/
def digitsToNat (cs : List Char) : Nat :=
  cs.foldl (fun a c => 10 * a + (c.toNat - 48)) 0

/-- Python float() restricted to the strings the cleaning step can produce,
which consist of digits and dots only: defined when there is at least one
digit and at most one dot, the usual decimal value, otherwise none
(ValueError). -/
def pyFloatOfCleaned (s : String) : Option ℚ :=
  let cs := s.data
  if cs.all (fun c => c.isDigit || c == '.') && cs.any Char.isDigit &&
      decide (cs.count '.' ≤ 1) then
    let ip := cs.takeWhile (fun c => c != '.')
    let fp := (cs.dropWhile (fun c => c != '.')).drop 1
    some ((digitsToNat ip : ℚ) + (digitsToNat fp : ℚ) / (10 : ℚ) ^ fp.length)
  else none

/-- Python truthiness of an optional string: false for None and for the
empty string. -/
def truthy (o : Option String) : Bool :=
  match o with
  | none => false
  | some s => s != ""

/-- get_product_info after the page fetch: priceMatch and nameMatch are the
text of the first element matching each selector (none if no match). The
code strips both, cleans the price text, and converts to float only inside
if product_name and price_str, returning (product_name, None) otherwise. -/
def get_product_info (priceMatch nameMatch : Option String) :
    Option String × Option ℚ :=
  let price_str : Option String := priceMatch.map (fun raw => cleanPriceText (pyStrip raw))
  let product_name : Option String := nameMatch.map pyStrip
  if truthy product_name && truthy price_str then
    (product_name, pyFloatOfCleaned (price_str.getD ""))
  else
    (product_name, none)

/-! Compaction (clean_price_history, src/app/services/price_service.py
lines 104 to 139). The week parameter stands for the strftime key
%Y-%W computed from each timestamp; on the chronologically ordered
timestamps of a series this key is monotone, which is the only property
the proofs assume about it. -/

/-- The rows of one groupby group: the rows whose week key equals k, in
dataframe order. -/
def weekGroup (week : Nat → Nat) (l : List PriceEntry) (k : Nat) : List PriceEntry :=
  l.filter (fun r => week r.ts == k)

/-- The group keys as pandas groupby produces them: the distinct week keys
of the dataframe, sorted ascending. -/
def sortedWeekKeys (week : Nat → Nat) (l : List PriceEntry) : List Nat :=
  List.insertionSort (fun a b => a ≤ b) ((l.map (fun r => week r.ts)).dedup)

/-- The nunique == 1 test of the per-group lambda: the lambda returns the
one-row Series iloc[0] exactly when the group has a single distinct price,
and the whole group dataframe otherwise. -/
def groupCollapses (g : List PriceEntry) : Bool :=
  ((g.map PriceEntry.price).dedup).length == 1

/-- One retained row as read back by iterrows: the date and price cells,
none standing for NaN (which sqlite3 binds as NULL). -/
structure KeptRow where
  ts : Option Nat
  price : Option ℚ
  deriving DecidableEq

/-- Column count of the cleaned dataframe: date, price, datetime_obj and
week_num. -/
def dfColumnCount : Nat := 4

/-- The wrapped output of groupby(week).apply of the per-group lambda, as
iterated by iterrows, faithful to pandas: when every group returns the
one-row Series the result is one valid row per group (the first row of
each); when every group returns a dataframe the result is all rows
concatenated in key order; when the returns are mixed, pandas falls back to
concat, which treats each returned Series as a column, so every collapsed
group becomes a block of dfColumnCount rows whose date and price cells are
NaN, while the dataframe groups keep their rows. -/
def rows_to_keep (week : Nat → Nat) (l : List PriceEntry) : List KeptRow :=
  if (sortedWeekKeys week l).all (fun k => groupCollapses (weekGroup week l k)) then
    (((sortedWeekKeys week l).map (fun k => (weekGroup week l k).take 1)).flatten).map
      (fun r => ⟨some r.ts, some r.price⟩)
  else if (sortedWeekKeys week l).all
      (fun k => !groupCollapses (weekGroup week l k)) then
    (((sortedWeekKeys week l).map (fun k => weekGroup week l k)).flatten).map
      (fun r => ⟨some r.ts, some r.price⟩)
  else
    ((sortedWeekKeys week l).map (fun k =>
      if groupCollapses (weekGroup week l k) then
        List.replicate dfColumnCount (⟨none, none⟩ : KeptRow)
      else (weekGroup week l k).map (fun r => (⟨some r.ts, some r.price⟩ : KeptRow)))).flatten

/-- Outcome of clean_price_history for one product. -/
inductive ReplaceOutcome
  | skipped
  | replaced
  | insertFailed
  deriving DecidableEq

/-- Reading a kept row back as a prices-table row; none if a cell is NaN. -/
def keptEntry (r : KeptRow) : Option PriceEntry :=
  r.ts.bind (fun t => r.price.map (fun p => ⟨t, p⟩))

/-- clean_price_history for one product: skip an empty series or an empty
retained list; otherwise delete everything (committed on its own
connection) and bulk insert the retained rows on another. The insert
raises sqlite3.Error when any bound cell is NaN (NULL against the NOT NULL
columns) or when an external storage error occurs; the rollback then
undoes only the insert, leaving the table empty after the committed
delete. -/
def clean_price_history_product (week : Nat → Nat) (db : List PriceEntry)
    (sqlError : Bool) : List PriceEntry × ReplaceOutcome :=
  if db = [] then (db, ReplaceOutcome.skipped)
  else if rows_to_keep week (get_all_price_entries_df db) = [] then
    (db, ReplaceOutcome.skipped)
  else if sqlError || (rows_to_keep week (get_all_price_entries_df db)).any
      (fun r => !(r.ts.isSome && r.price.isSome)) then
    (delete_prices_for_product db, ReplaceOutcome.insertFailed)
  else
    (delete_prices_for_product db
      ++ (rows_to_keep week (get_all_price_entries_df db)).filterMap keptEntry,
     ReplaceOutcome.replaced)

/-! Claim theorems. -/

/-- C1. The per-product exception boundary of process_new_price_iteration is
broken: log_message accepts exactly one positional argument, but the except
handler calls it with two, so the handler itself raises TypeError and the
pass aborts, leaving every later product unprocessed. The theorem evaluates
the pass at the failing input: product 1 raises, the healthy product 2 is
never processed, while the same product 2 alone is processed fine; the
handler call itself is the TypeError. -/
theorem process_iteration_handler_crash :
    process_products_pass [(1, true), (2, false)] = Except.error PyExc.typeError
    ∧ process_products_pass [(2, false)] = Except.ok [2]
    ∧ log_message [LogMsg.errorProcessing 1, LogMsg.levelTag]
        = Except.error PyExc.typeError :=
  ⟨rfl, rfl, rfl⟩

/-- C2. The compaction replacement is not all-or-nothing: the delete commits
on its own connection before the bulk insert starts, so an insert error
(whose rollback only undoes the insert) leaves the product with zero points
although the prior series and the retained set were both non-empty. Without
an error, replace_all of a non-empty set does leave the series non-empty. -/
theorem replace_all_not_atomic_bug :
    replace_all [⟨0, 999/100⟩] [⟨0, 999/100⟩] true = []
    ∧ (clean_price_history_product (fun t => t / 7) [⟨0, 999/100⟩] true).1 = []
    ∧ replace_all [⟨0, 999/100⟩] [⟨0, 999/100⟩] false = [⟨0, 999/100⟩]
    ∧ ([⟨0, (999 : ℚ)/100⟩] : List PriceEntry) ≠ [] :=
  ⟨rfl, rfl, rfl, List.cons_ne_nil _ _⟩

/-- C5. For a processed product with an extracted price and an existing
previous latest point, a notification is sent iff the new price is strictly
below the previous one, and then it carries exactly
(previous - price) / previous * 100; with no previous point no notification
is sent regardless of the current price. -/
theorem price_drop_notification_spec (st : ProductState) (current : ℚ) (now : Nat) :
    (∀ prev : ℚ, (get_latest_price_entry st.series).map PriceEntry.price = some prev →
        (((process_single_product st (some current) now).notif).isSome ↔ current < prev)
        ∧ (current < prev →
            (process_single_product st (some current) now).notif
              = some ((prev - current) / prev * 100))
        ∧ (¬ current < prev →
            (process_single_product st (some current) now).notif = none))
    ∧ (st.series = [] → (process_single_product st (some current) now).notif = none) := by
  constructor
  · intro prev hprev
    have hbody : (process_single_product st (some current) now).notif
        = match (get_latest_price_entry st.series).map PriceEntry.price with
          | some p => if current < p then some ((p - current) / p * 100) else none
          | none => none := rfl
    rw [hbody, hprev]
    by_cases h : current < prev
    · simp [h]
    · simp [h]
  · intro h
    have hbody : (process_single_product st (some current) now).notif
        = match (get_latest_price_entry st.series).map PriceEntry.price with
          | some p => if current < p then some ((p - current) / p * 100) else none
          | none => none := rfl
    rw [hbody, h]
    rfl

/-- Witness for C5: previous 100 and current 90 notify with discount 10
(rendered 10.00); an unchanged price 50 does not notify; an empty series
does not notify. -/
theorem price_drop_notification_witness :
    (process_single_product ⟨[⟨0, 100⟩], none⟩ (some 90) 1).notif = some 10
    ∧ (process_single_product ⟨[⟨0, 50⟩], none⟩ (some 50) 1).notif = none
    ∧ (process_single_product ⟨[], none⟩ (some 90) 1).notif = none := by
  refine ⟨?_, ?_, ?_⟩
  · have h := ((price_drop_notification_spec ⟨[⟨0, 100⟩], none⟩ 90 1).1 100 rfl).2.1
      (by norm_num)
    rw [h]
    norm_num
  · exact ((price_drop_notification_spec ⟨[⟨0, 50⟩], none⟩ 50 1).1 50 rfl).2.2
      (by norm_num)
  · exact (price_drop_notification_spec ⟨[], none⟩ 90 1).2 rfl

/-- C6 counterexample. The spec computes the compaction period as
round(86400 / check_period), but the code truncates with int(): at a check
period of 7 seconds the code fires at iteration 12342 = int(86400 / 7),
which is not a multiple of round(86400 / 7) = 12343. -/
theorem compaction_period_truncates_cex :
    clean_this_iteration 7 12342 = true
    ∧ spec_round_of_div 86400 7 = 12343
    ∧ ¬ (spec_round_of_div 86400 7 ∣ 12342) := by
  refine ⟨by decide, by decide, ?_⟩
  rw [show spec_round_of_div 86400 7 = 12343 from by decide, Nat.dvd_iff_mod_eq_zero]
  decide

/-- C6 amended. For a check period d with 0 < d and d <= 86400 the monitor
loop runs clean_price_history exactly on the iterations whose counter is a
multiple of the truncated quotient 86400 / d (not the rounded one), that
period is at least one iteration, and when compaction fires it comes after
the check pass of the same iteration. -/
theorem compaction_period_amended_spec (d : Int) (h1 : 0 < d) (h2 : d ≤ 86400)
    (i : Nat) :
    (clean_this_iteration d i = true ↔ (86400 / d.toNat) ∣ i)
    ∧ 1 ≤ 86400 / d.toNat
    ∧ (clean_this_iteration d i = true →
        iteration_events d i = [LoopEvent.checkPass, LoopEvent.cleanHistory])
    ∧ (clean_this_iteration d i = false →
        iteration_events d i = [LoopEvent.checkPass]) := by
  have hN : iterations_per_day d = 86400 / d.toNat := by
    unfold iterations_per_day
    rw [if_pos h1]
  refine ⟨?_, ?_, ?_, ?_⟩
  · simp only [clean_this_iteration, hN, beq_iff_eq]
    exact (Nat.dvd_iff_mod_eq_zero).symm
  · have hd0 : 0 < d.toNat := by omega
    have hd8 : d.toNat ≤ 86400 := by omega
    exact (Nat.one_le_div_iff hd0).mpr hd8
  · intro h
    unfold iteration_events
    rw [h]
    rfl
  · intro h
    unfold iteration_events
    rw [h]
    rfl

/-- Witness for C6 amended: with the default-like period of 60 seconds the
period is 1440 iterations and iteration 2880 compacts. -/
theorem compaction_period_amended_witness :
    clean_this_iteration 60 2880 = true ∧ 1 ≤ 86400 / (60 : Int).toNat :=
  ⟨((compaction_period_amended_spec 60 (by decide) (by decide) 2880).1).mpr
      (by rw [Nat.dvd_iff_mod_eq_zero]; decide),
   (compaction_period_amended_spec 60 (by decide) (by decide) 2880).2.1⟩

/-- C7. The last-checked timestamp is written both when extraction fails
(price none) and when it succeeds; in the failure case nothing else
changes: the series is untouched, no point is saved and nothing is sent. -/
theorem last_checked_frame_spec (st : ProductState) (p : ℚ) (now : Nat) :
    (process_single_product st none now).state.last_checked_at = some now
    ∧ (process_single_product st none now).state.series = st.series
    ∧ (process_single_product st none now).saved = false
    ∧ (process_single_product st none now).notif = none
    ∧ (process_single_product st (some p) now).state.last_checked_at = some now
    ∧ (process_single_product st (some p) now).state.series = st.series ++ [⟨now, p⟩]
    ∧ (process_single_product st (some p) now).saved = true :=
  ⟨rfl, rfl, rfl, rfl, rfl, rfl, rfl⟩

/-- C8. Reading the full series sorts the appended points by timestamp (a
permutation of them, in non-decreasing order), and the latest projection is
the last-appended point, none on an empty series. -/
theorem series_projections_spec (db : List PriceEntry) (e : PriceEntry) :
    List.Sorted tsLE (get_all_price_entries_df db)
    ∧ (get_all_price_entries_df db).Perm db
    ∧ get_latest_price_entry (save_price_entry db e) = some e
    ∧ get_latest_price_entry ([] : List PriceEntry) = none :=
  ⟨List.sorted_insertionSort tsLE db, List.perm_insertionSort tsLE db,
   List.getLast?_concat db, rfl⟩

/-- C3 counterexample. The claim says the returned price depends only on the
price selector match, parsing even when the name selector matches nothing.
In the code the float conversion sits inside if product_name and price_str,
so for the text shown, whose cleaned form 19.99 parses to 19.99, no name
match still gives price none. Moreover the claimed example text with the
trailing sentence dot cleans to 19.99. (the filter keeps every dot), which
does not parse, so it gives none even with a name. -/
theorem extractor_price_needs_name_cex :
    (get_product_info (some "€ 19,99") none).2 = none
    ∧ pyFloatOfCleaned (cleanPriceText (pyStrip "€ 19,99")) = some (1999 / 100)
    ∧ cleanPriceText (pyStrip "€ 19,99 incl.") = "19.99."
    ∧ (get_product_info (some "€ 19,99 incl.") (some "Widget")).2 = none := by
  refine ⟨rfl, ?_, by decide, by decide⟩
  have h1 : cleanPriceText (pyStrip "€ 19,99") = "19.99" := by decide
  rw [h1]
  have h2 : pyFloatOfCleaned "19.99"
      = some ((digitsToNat ['1', '9'] : ℚ)
          + (digitsToNat ['9', '9'] : ℚ) / (10 : ℚ) ^ (['9', '9'] : List Char).length) :=
    rfl
  rw [h2]
  have h3 : digitsToNat ['1', '9'] = 19 := by decide
  have h4 : digitsToNat ['9', '9'] = 99 := by decide
  rw [h3, h4]
  norm_num

/-- C3 amended. The name result is always the stripped name match. The price
result is gated on the name: with no price match it is none; with a falsy
name (no match or empty after stripping) it is none even if the price text
parses; and when the name is truthy the price result is exactly the float
parse of the cleaned price text (none on parse failure, with the name still
returned). -/
theorem extractor_amended_spec (pm nm : Option String) :
    (get_product_info pm nm).1 = nm.map pyStrip
    ∧ (pm = none → (get_product_info pm nm).2 = none)
    ∧ (truthy (nm.map pyStrip) = false → (get_product_info pm nm).2 = none)
    ∧ (∀ raw, pm = some raw → truthy (nm.map pyStrip) = true →
        (get_product_info pm nm).2 = pyFloatOfCleaned (cleanPriceText (pyStrip raw))) := by
  have hdef : get_product_info pm nm
      = (if truthy (nm.map pyStrip)
            && truthy (pm.map (fun raw => cleanPriceText (pyStrip raw)))
         then (nm.map pyStrip,
               pyFloatOfCleaned ((pm.map (fun raw => cleanPriceText (pyStrip raw))).getD ""))
         else (nm.map pyStrip, none)) := rfl
  refine ⟨?_, ?_, ?_, ?_⟩
  · rw [hdef]
    split <;> rfl
  · intro h
    subst h
    rw [hdef]
    simp [truthy]
  · intro h
    rw [hdef, h]
    rfl
  · intro raw hpm htr
    subst hpm
    rw [hdef, htr]
    by_cases hs : cleanPriceText (pyStrip raw) = ""
    · have hfalse : truthy ((some raw).map (fun raw => cleanPriceText (pyStrip raw))) = false := by
        simp [truthy, hs]
      rw [hfalse, hs]
      rfl
    · have htrue : truthy ((some raw).map (fun raw => cleanPriceText (pyStrip raw))) = true := by
        simp [truthy, hs]
      rw [htrue]
      rfl

/-- Witness for C3 amended: with a truthy name the price result is the parse
of the cleaned price text, and with no price match the price is none. -/
theorem extractor_amended_witness :
    (get_product_info (some "€ 19,99 incl.") (some "Widget")).2
      = pyFloatOfCleaned (cleanPriceText (pyStrip "€ 19,99 incl."))
    ∧ (get_product_info none (some "Widget")).2 = none :=
  ⟨(extractor_amended_spec (some "€ 19,99 incl.") (some "Widget")).2.2.2
      "€ 19,99 incl." rfl (by decide),
   (extractor_amended_spec none (some "Widget")).2.1 rfl⟩

/-- A left fold of min is the seed or a list member. -/
theorem foldl_min_choice {α : Type} [LinearOrder α] (l : List α) (a : α) :
    l.foldl min a = a ∨ l.foldl min a ∈ l := by
  induction l generalizing a with
  | nil => exact Or.inl rfl
  | cons b t ih =>
    rcases ih (min a b) with h | h
    · rcases min_choice a b with hm | hm
      · exact Or.inl (by rw [List.foldl_cons, h, hm])
      · exact Or.inr (by rw [List.foldl_cons, h, hm]; exact List.mem_cons_self b t)
    · exact Or.inr (List.mem_cons_of_mem b (by rw [List.foldl_cons]; exact h))

/-- A left fold of min bounds the seed and every list member from below. -/
theorem foldl_min_le {α : Type} [LinearOrder α] (l : List α) (a : α) :
    l.foldl min a ≤ a ∧ ∀ x ∈ l, l.foldl min a ≤ x := by
  induction l generalizing a with
  | nil =>
    refine ⟨le_refl a, ?_⟩
    intro x hx
    cases hx
  | cons b t ih =>
    have h := ih (min a b)
    refine ⟨?_, ?_⟩
    · rw [List.foldl_cons]
      exact h.1.trans (min_le_left a b)
    · intro x hx
      rcases List.mem_cons.mp hx with rfl | hx'
      · rw [List.foldl_cons]
        exact h.1.trans (min_le_right a x)
      · rw [List.foldl_cons]
        exact h.2 x hx'

/-- A left fold of max is the seed or a list member. -/
theorem foldl_max_choice {α : Type} [LinearOrder α] (l : List α) (a : α) :
    l.foldl max a = a ∨ l.foldl max a ∈ l := by
  induction l generalizing a with
  | nil => exact Or.inl rfl
  | cons b t ih =>
    rcases ih (max a b) with h | h
    · rcases max_choice a b with hm | hm
      · exact Or.inl (by rw [List.foldl_cons, h, hm])
      · exact Or.inr (by rw [List.foldl_cons, h, hm]; exact List.mem_cons_self b t)
    · exact Or.inr (List.mem_cons_of_mem b (by rw [List.foldl_cons]; exact h))

/-- A left fold of max bounds the seed and every list member from above. -/
theorem foldl_max_ge {α : Type} [LinearOrder α] (l : List α) (a : α) :
    a ≤ l.foldl max a ∧ ∀ x ∈ l, x ≤ l.foldl max a := by
  induction l generalizing a with
  | nil =>
    refine ⟨le_refl a, ?_⟩
    intro x hx
    cases hx
  | cons b t ih =>
    have h := ih (max a b)
    refine ⟨?_, ?_⟩
    · rw [List.foldl_cons]
      exact (le_max_left a b).trans h.1
    · intro x hx
      rcases List.mem_cons.mp hx with rfl | hx'
      · rw [List.foldl_cons]
        exact (le_max_right a x).trans h.1
      · rw [List.foldl_cons]
        exact h.2 x hx'

/-- C9. Statistics are computed over the non-null prices only; zero points
give count 0 with null min, max and average; otherwise the count of
non-null prices is returned together with an attained lower bound as min,
an attained upper bound as max, and the average sum over count rounded to
two decimals. -/
theorem price_stats_spec (rows : List (Option ℚ)) :
    get_price_stats rows = get_price_stats ((rows.filterMap id).map some)
    ∧ (rows.filterMap id = [] → get_price_stats rows = ⟨0, none, none, none⟩)
    ∧ (∀ v vs, rows.filterMap id = v :: vs →
        (get_price_stats rows).total_entries = (v :: vs).length
        ∧ (∃ m, (get_price_stats rows).min_price = some m ∧ m ∈ v :: vs
            ∧ ∀ x ∈ v :: vs, m ≤ x)
        ∧ (∃ M, (get_price_stats rows).max_price = some M ∧ M ∈ v :: vs
            ∧ ∀ x ∈ v :: vs, x ≤ M)
        ∧ (get_price_stats rows).average_price
            = some (round2 ((v :: vs).sum / ((v :: vs).length : ℚ)))) := by
  have hdef : ∀ rs : List (Option ℚ), get_price_stats rs
      = (if (rs.filterMap id).length = 0 then ⟨0, none, none, none⟩
         else ⟨(rs.filterMap id).length, (rs.filterMap id).min?, (rs.filterMap id).max?,
               some (round2 ((rs.filterMap id).sum / ((rs.filterMap id).length : ℚ)))⟩) :=
    fun _ => rfl
  have hmap : ((rows.filterMap id).map some).filterMap id = rows.filterMap id := by
    rw [List.filterMap_map]
    exact List.filterMap_some _
  refine ⟨?_, ?_, ?_⟩
  · rw [hdef rows, hdef ((rows.filterMap id).map some), hmap]
  · intro h
    rw [hdef rows, h]
    rfl
  · intro v vs h
    rw [hdef rows, h]
    rw [if_neg (by simp)]
    refine ⟨rfl, ?_, ?_, rfl⟩
    · refine ⟨vs.foldl min v, rfl, ?_, ?_⟩
      · rcases foldl_min_choice vs v with hc | hc
        · rw [hc]
          exact List.mem_cons_self v vs
        · exact List.mem_cons_of_mem v hc
      · intro x hx
        rcases List.mem_cons.mp hx with rfl | hx'
        · exact (foldl_min_le vs x).1
        · exact (foldl_min_le vs v).2 x hx'
    · refine ⟨vs.foldl max v, rfl, ?_, ?_⟩
      · rcases foldl_max_choice vs v with hc | hc
        · rw [hc]
          exact List.mem_cons_self v vs
        · exact List.mem_cons_of_mem v hc
      · intro x hx
        rcases List.mem_cons.mp hx with rfl | hx'
        · exact (foldl_max_ge vs x).1
        · exact (foldl_max_ge vs v).2 x hx'

/-- Witness for C9: the points 10, 20, 15 give count 3, an attained min and
max, and average 15; the empty input gives the all-null zero record. -/
theorem price_stats_witness :
    (get_price_stats [some 10, some 20, some 15]).total_entries = 3
    ∧ (∃ m, (get_price_stats [some 10, some 20, some 15]).min_price = some m
        ∧ m ∈ [(10 : ℚ), 20, 15] ∧ ∀ x ∈ [(10 : ℚ), 20, 15], m ≤ x)
    ∧ (∃ M, (get_price_stats [some 10, some 20, some 15]).max_price = some M
        ∧ M ∈ [(10 : ℚ), 20, 15] ∧ ∀ x ∈ [(10 : ℚ), 20, 15], x ≤ M)
    ∧ (get_price_stats [some 10, some 20, some 15]).average_price = some 15
    ∧ get_price_stats ([] : List (Option ℚ)) = ⟨0, none, none, none⟩ := by
  have h := (price_stats_spec [some 10, some 20, some 15]).2.2 10 [20, 15] rfl
  refine ⟨h.1, h.2.1, h.2.2.1, ?_, (price_stats_spec []).2.1 rfl⟩
  rw [h.2.2.2]
  have hsum : ((10 : ℚ) :: [20, 15]).sum = 45 := by norm_num
  have hlen : ((((10 : ℚ) :: [20, 15]).length : ℚ)) = 3 := by norm_num
  rw [hsum, hlen]
  have h45 : (45 : ℚ) / 3 = 15 := by norm_num
  rw [h45]
  have hfloor : ratFloor ((15 : ℚ) * 100) = 1500 := by
    norm_num [ratFloor]
  rw [show round2 15 = ((if (15 : ℚ) * 100 - (ratFloor ((15 : ℚ) * 100) : ℚ) < 1 / 2
      then (ratFloor ((15 : ℚ) * 100) : ℚ)
      else if 1 / 2 < (15 : ℚ) * 100 - (ratFloor ((15 : ℚ) * 100) : ℚ)
      then (ratFloor ((15 : ℚ) * 100) : ℚ) + 1
      else if ratFloor ((15 : ℚ) * 100) % 2 = 0 then (ratFloor ((15 : ℚ) * 100) : ℚ)
      else (ratFloor ((15 : ℚ) * 100) : ℚ) + 1) / 100) from rfl, hfloor]
  norm_num

/-- Membership in a week group is membership in the series with that key. -/
theorem mem_weekGroup {week : Nat → Nat} {l : List PriceEntry} {k : Nat}
    {r : PriceEntry} : r ∈ weekGroup week l k ↔ r ∈ l ∧ week r.ts = k := by
  simp [weekGroup, List.mem_filter]

/-- The sorted keys are exactly the keys occurring in the series. -/
theorem mem_sortedWeekKeys {week : Nat → Nat} {l : List PriceEntry} {k : Nat} :
    k ∈ sortedWeekKeys week l ↔ ∃ r ∈ l, week r.ts = k := by
  simp [sortedWeekKeys, List.mem_insertionSort, List.mem_dedup, List.mem_map]

/-- The sorted keys carry no duplicates. -/
theorem sortedWeekKeys_nodup (week : Nat → Nat) (l : List PriceEntry) :
    (sortedWeekKeys week l).Nodup :=
  ((List.perm_insertionSort _ _).nodup_iff).mpr (List.nodup_dedup _)

/-- The keys are sorted ascending, as pandas groupby sorts group keys. -/
theorem sortedWeekKeys_sorted (week : Nat → Nat) (l : List PriceEntry) :
    List.Sorted (fun a b : Nat => a ≤ b) (sortedWeekKeys week l) :=
  List.sorted_insertionSort _ _

/-- Distinct sorted keys are strictly increasing. -/
theorem sortedWeekKeys_pairwise_lt (week : Nat → Nat) (l : List PriceEntry) :
    List.Pairwise (fun a b : Nat => a < b) (sortedWeekKeys week l) :=
  ((sortedWeekKeys_sorted week l).and (sortedWeekKeys_nodup week l)).imp
    (fun h => lt_of_le_of_ne h.1 h.2)

/-- A group of an occurring key is non-empty. -/
theorem weekGroup_ne_nil_of_mem_keys {week : Nat → Nat} {l : List PriceEntry}
    {k : Nat} (hk : k ∈ sortedWeekKeys week l) : weekGroup week l k ≠ [] := by
  obtain ⟨r, hr, hrk⟩ := mem_sortedWeekKeys.mp hk
  intro hnil
  have hrg : r ∈ weekGroup week l k := mem_weekGroup.mpr ⟨hr, hrk⟩
  rw [hnil] at hrg
  cases hrg

/-- Taking the first row of a non-empty list gives a non-empty list. -/
theorem take_one_ne_nil {g : List PriceEntry} (hg : g ≠ []) : g.take 1 ≠ [] := by
  cases g with
  | nil => exact absurd rfl hg
  | cons a t => exact List.cons_ne_nil a (t.take 0)

/-- With a monotone week key on a chronologically sorted series, any
per-group selection of rows, concatenated over the sorted keys, is again
chronologically sorted. -/
theorem pairwise_flatten_groups (week : Nat → Nat)
    (hmono : ∀ a b, a ≤ b → week a ≤ week b)
    (l : List PriceEntry) (hl : List.Pairwise tsLE l)
    (F : Nat → List PriceEntry)
    (hFsub : ∀ k, (F k).Sublist (weekGroup week l k)) :
    List.Pairwise tsLE (((sortedWeekKeys week l).map F).flatten) := by
  rw [List.pairwise_flatten]
  constructor
  · intro c hc
    rw [List.mem_map] at hc
    obtain ⟨k, _, rfl⟩ := hc
    exact List.Pairwise.sublist (hFsub k) (hl.filter _)
  · rw [List.pairwise_map]
    refine (sortedWeekKeys_pairwise_lt week l).imp ?_
    intro k₁ k₂ hk x hx y hy
    have hx' := mem_weekGroup.mp ((hFsub k₁).subset hx)
    have hy' := mem_weekGroup.mp ((hFsub k₂).subset hy)
    by_contra hxy
    have h1 : y.ts ≤ x.ts := Nat.le_of_not_le hxy
    have h2 : week y.ts ≤ week x.ts := hmono _ _ h1
    rw [hx'.2, hy'.2] at h2
    exact absurd hk (not_lt.mpr h2)

/-- Valid rows survive the round trip through the kept-row representation. -/
theorem filterMap_keptEntry_map (rows : List PriceEntry) :
    ((rows.map (fun r => (⟨some r.ts, some r.price⟩ : KeptRow))).filterMap keptEntry)
      = rows := by
  induction rows with
  | nil => rfl
  | cons a t ih =>
    rw [List.map_cons, List.filterMap_cons]
    exact congrArg (List.cons a) ih

/-- The last element given by getLast? is a member. -/
theorem mem_of_getLast?_eq {α : Type} {l : List α} {m : α}
    (h : l.getLast? = some m) : m ∈ l := by
  rcases List.getLast?_eq_some_iff.mp h with ⟨ys, rfl⟩
  exact List.mem_append_right ys (List.mem_singleton_self m)

/-- In a pairwise-related list every member is related to the last element. -/
theorem pairwise_rel_getLast? {α : Type} {R : α → α → Prop} (hrefl : ∀ a, R a a) :
    ∀ (l : List α) (m : α), l.getLast? = some m → List.Pairwise R l →
      ∀ x ∈ l, R x m := by
  intro l
  induction l with
  | nil =>
    intro m hm
    cases hm
  | cons a t ih =>
    intro m hm hp x hx
    cases t with
    | nil =>
      rw [List.getLast?_singleton] at hm
      injection hm with hm'
      subst hm'
      rcases List.mem_singleton.mp hx with rfl
      exact hrefl x
    | cons b t' =>
      rw [List.getLast?_cons_cons] at hm
      rcases List.mem_cons.mp hx with rfl | hx'
      · exact (List.pairwise_cons.mp hp).1 m (mem_of_getLast?_eq hm)
      · exact ih m hm (List.pairwise_cons.mp hp).2 x hx'

/-- Flattening lists that are all non-empty, the last element comes from the
last list. -/
theorem getLast?_flatten_of_ne_nil {β : Type} :
    ∀ (L : List (List β)), (∀ c ∈ L, c ≠ []) →
      ∀ c, L.getLast? = some c → L.flatten.getLast? = c.getLast? := by
  intro L
  induction L with
  | nil =>
    intro _ c hc
    cases hc
  | cons a t ih =>
    intro hne c hc
    cases t with
    | nil =>
      rw [List.getLast?_singleton] at hc
      injection hc with hc'
      subst hc'
      rw [List.flatten_cons, List.flatten_nil, List.append_nil]
    | cons b t' =>
      rw [List.getLast?_cons_cons] at hc
      rw [List.flatten_cons, List.getLast?_append]
      have hflat : (b :: t').flatten.getLast? = c.getLast? :=
        ih (fun x hx => hne x (List.mem_cons_of_mem a hx)) c hc
      rw [hflat]
      have hcne : c ≠ [] := hne c (List.mem_cons_of_mem a (mem_of_getLast?_eq hc))
      cases hcz : c.getLast? with
      | none => exact absurd (List.getLast?_eq_none_iff.mp hcz) hcne
      | some z => rfl

/-- Filtering keeps the last element of a list when it satisfies the
predicate, and it stays last. -/
theorem getLast?_filter_of_getLast {α : Type} (p : α → Bool) :
    ∀ (l : List α) (m : α), l.getLast? = some m → p m = true →
      (l.filter p).getLast? = some m := by
  intro l
  induction l with
  | nil =>
    intro m hm
    cases hm
  | cons a t ih =>
    intro m hm hpm
    cases t with
    | nil =>
      rw [List.getLast?_singleton] at hm
      injection hm with hm'
      subst hm'
      rw [List.filter_cons, if_pos hpm]
      rfl
    | cons b t' =>
      rw [List.getLast?_cons_cons] at hm
      have ht := ih m hm hpm
      rw [List.filter_cons]
      by_cases hpa : p a = true
      · rw [if_pos hpa]
        cases hflt : (b :: t').filter p with
        | nil =>
          rw [hflt] at ht
          cases ht
        | cons c cs =>
          rw [hflt] at ht
          rw [List.getLast?_cons_cons]
          exact ht
      · rw [if_neg hpa]
        exact ht

/-- A list whose deduplication has one element is constant. -/
theorem dedup_length_one_all_eq {α : Type} [DecidableEq α] (xs : List α)
    (h : xs.dedup.length = 1) : ∀ x ∈ xs, ∀ y ∈ xs, x = y := by
  rw [List.length_eq_one] at h
  obtain ⟨z, hz⟩ := h
  intro x hx y hy
  have hx' : x ∈ xs.dedup := List.mem_dedup.mpr hx
  have hy' : y ∈ xs.dedup := List.mem_dedup.mpr hy
  rw [hz] at hx' hy'
  rw [List.mem_singleton.mp hx', List.mem_singleton.mp hy']

/-- For a monotone week key on a sorted series, the greatest key is the key
of the last row, and it comes last in the sorted keys. -/
theorem sortedWeekKeys_getLast?_eq (week : Nat → Nat)
    (hmono : ∀ a b, a ≤ b → week a ≤ week b)
    (l : List PriceEntry) (hl : List.Pairwise tsLE l)
    (m : PriceEntry) (hm : l.getLast? = some m) :
    (sortedWeekKeys week l).getLast? = some (week m.ts) := by
  have hml : m ∈ l := mem_of_getLast?_eq hm
  have hmem : week m.ts ∈ sortedWeekKeys week l := mem_sortedWeekKeys.mpr ⟨m, hml, rfl⟩
  have hrel : List.Pairwise tsLE l → ∀ x ∈ l, tsLE x m :=
    pairwise_rel_getLast? (fun a : PriceEntry => Nat.le_refl a.ts) l m hm
  have hub : ∀ k ∈ sortedWeekKeys week l, k ≤ week m.ts := by
    intro k hk
    obtain ⟨r, hr, rfl⟩ := mem_sortedWeekKeys.mp hk
    exact hmono _ _ (hrel hl r hr)
  cases hkl : (sortedWeekKeys week l).getLast? with
  | none =>
    have hknil : sortedWeekKeys week l = [] := List.getLast?_eq_none_iff.mp hkl
    rw [hknil] at hmem
    cases hmem
  | some kl =>
    have h1 : kl ≤ week m.ts := hub kl (mem_of_getLast?_eq hkl)
    have h2 : week m.ts ≤ kl :=
      pairwise_rel_getLast? (fun a => Nat.le_refl a) (sortedWeekKeys week l) kl hkl
        (sortedWeekKeys_sorted week l) (week m.ts) hmem
    rw [Nat.le_antisymm h1 h2]

/-- With a monotone week key on a sorted series ending in row m, any
per-group selection whose chunks are non-empty and whose chunk at the last
key ends in the price of m flattens to a list ending in the price of m. -/
theorem getLast?_price_flatten_groups (week : Nat → Nat)
    (hmono : ∀ a b, a ≤ b → week a ≤ week b)
    (l : List PriceEntry) (hl : List.Pairwise tsLE l)
    (m : PriceEntry) (hm : l.getLast? = some m)
    (F : Nat → List PriceEntry)
    (hFne : ∀ k ∈ sortedWeekKeys week l, F k ≠ [])
    (hFlast : (F (week m.ts)).getLast?.map PriceEntry.price = some m.price) :
    ((((sortedWeekKeys week l).map F).flatten).getLast?).map PriceEntry.price
      = some m.price := by
  have hkeys : (sortedWeekKeys week l).getLast? = some (week m.ts) :=
    sortedWeekKeys_getLast?_eq week hmono l hl m hm
  have hLlast : ((sortedWeekKeys week l).map F).getLast? = some (F (week m.ts)) := by
    rw [List.getLast?_map, hkeys]
    rfl
  have hchunks : ∀ c ∈ (sortedWeekKeys week l).map F, c ≠ [] := by
    intro c hc
    rw [List.mem_map] at hc
    obtain ⟨k, hk, rfl⟩ := hc
    exact hFne k hk
  rw [getLast?_flatten_of_ne_nil _ hchunks _ hLlast]
  exact hFlast

/-- When the group of the last row has a single distinct price, its first
row carries the price of the last row. -/
theorem weekGroup_take_one_price (week : Nat → Nat) (l : List PriceEntry)
    (m : PriceEntry) (hm : l.getLast? = some m)
    (hu : ((weekGroup week l (week m.ts)).map PriceEntry.price).dedup.length = 1) :
    (((weekGroup week l (week m.ts)).take 1).getLast?).map PriceEntry.price
      = some m.price := by
  have hmg : m ∈ weekGroup week l (week m.ts) :=
    mem_weekGroup.mpr ⟨mem_of_getLast?_eq hm, rfl⟩
  cases hgr : weekGroup week l (week m.ts) with
  | nil =>
    rw [hgr] at hmg
    cases hmg
  | cons a t =>
    have hall := dedup_length_one_all_eq _ hu
    have hpa : a.price = m.price :=
      hall a.price
        (by rw [hgr]; exact List.mem_map_of_mem PriceEntry.price (List.mem_cons_self a t))
        m.price (List.mem_map_of_mem PriceEntry.price hmg)
    exact congrArg some hpa

/-- The group of the last row, kept whole, still ends in the last row. -/
theorem weekGroup_getLast?_price (week : Nat → Nat) (l : List PriceEntry)
    (m : PriceEntry) (hm : l.getLast? = some m) :
    ((weekGroup week l (week m.ts)).getLast?).map PriceEntry.price = some m.price := by
  have hfil := getLast?_filter_of_getLast (fun r => week r.ts == week m.ts) l m hm
    (beq_iff_eq.mpr rfl)
  unfold weekGroup
  rw [hfil]
  rfl

/-- C4 failing-input evaluation. The claim describes the intended per-group
compaction (collapse a uniform-price week to its earliest point, keep other
weeks unchanged, retained count at most the original), which is also the
docstring of clean_price_history; the code deviates on a series mixing the
two kinds of week: groupby.apply returns a Series for the collapsed week
and a dataframe for the other, pandas concat turns the Series into a
NaN-padded column block, the retained rows become four NaN rows plus the
two kept rows (six rows out of four originals, exceeding the original
count), and the bulk insert of NaN (NULL against NOT NULL) fails after the
committed delete, wiping the series with no external storage error. A
series whose weeks all collapse still follows the claimed algorithm. -/
theorem clean_price_history_mixed_weeks_bug :
    rows_to_keep (fun t => t / 7) [⟨0, 10⟩, ⟨1, 10⟩, ⟨8, 5⟩, ⟨9, 7⟩]
      = [⟨none, none⟩, ⟨none, none⟩, ⟨none, none⟩, ⟨none, none⟩,
         ⟨some 8, some 5⟩, ⟨some 9, some 7⟩]
    ∧ ([⟨0, 10⟩, ⟨1, 10⟩, ⟨8, 5⟩, ⟨9, 7⟩] : List PriceEntry).length
        < (rows_to_keep (fun t => t / 7) [⟨0, 10⟩, ⟨1, 10⟩, ⟨8, 5⟩, ⟨9, 7⟩]).length
    ∧ (clean_price_history_product (fun t => t / 7)
        [⟨0, 10⟩, ⟨1, 10⟩, ⟨8, 5⟩, ⟨9, 7⟩] false).1 = []
    ∧ (clean_price_history_product (fun t => t / 7)
        [⟨0, 10⟩, ⟨1, 10⟩, ⟨8, 5⟩, ⟨9, 7⟩] false).2 = ReplaceOutcome.insertFailed
    ∧ rows_to_keep (fun t => t / 7) [⟨0, 10⟩, ⟨1, 10⟩, ⟨8, 5⟩]
        = [⟨some 0, some 10⟩, ⟨some 8, some 5⟩]
    ∧ clean_price_history_product (fun t => t / 7) [] false
        = ([], ReplaceOutcome.skipped) := by
  refine ⟨by decide, by decide, by decide, by decide, by decide, rfl⟩

/-- C10. For a non-empty chronologically sorted series whose compaction
replacement completes without a storage error (the replaced outcome, which
the faithful model reaches exactly when no retained cell is NaN), the
price of the latest point is unchanged: the replaced series is again
chronological and its last row carries the price of the last original row,
read back through the latest projection. -/
theorem compaction_preserves_latest_price (week : Nat → Nat)
    (hmono : ∀ a b, a ≤ b → week a ≤ week b)
    (l : List PriceEntry) (hl : List.Pairwise tsLE l) (hne : l ≠ [])
    (hrep : (clean_price_history_product week l false).2 = ReplaceOutcome.replaced) :
    (get_latest_price_entry (clean_price_history_product week l false).1).map
        PriceEntry.price = (get_latest_price_entry l).map PriceEntry.price
    ∧ List.Pairwise tsLE (clean_price_history_product week l false).1 := by
  obtain ⟨m, hm⟩ : ∃ m, l.getLast? = some m := by
    cases hgl : l.getLast? with
    | none => exact absurd (List.getLast?_eq_none_iff.mp hgl) hne
    | some m => exact ⟨m, rfl⟩
  have hsorted : get_all_price_entries_df l = l := List.Sorted.insertionSort_eq hl
  by_cases hk0 : rows_to_keep week l = []
  · exfalso
    have hskip : clean_price_history_product week l false = (l, ReplaceOutcome.skipped) := by
      unfold clean_price_history_product
      rw [hsorted, if_neg hne, if_pos hk0]
    rw [hskip] at hrep
    exact ReplaceOutcome.noConfusion hrep
  by_cases herr : (rows_to_keep week l).any
      (fun r => !(r.ts.isSome && r.price.isSome)) = true
  · exfalso
    have hfail : clean_price_history_product week l false
        = ([], ReplaceOutcome.insertFailed) := by
      unfold clean_price_history_product
      rw [hsorted, if_neg hne, if_neg hk0]
      simp only [Bool.false_or]
      rw [if_pos herr]
      rfl
    rw [hfail] at hrep
    exact ReplaceOutcome.noConfusion hrep
  have hpipe : clean_price_history_product week l false
      = ((rows_to_keep week l).filterMap keptEntry, ReplaceOutcome.replaced) := by
    unfold clean_price_history_product
    rw [hsorted, if_neg hne, if_neg hk0]
    simp only [Bool.false_or]
    rw [if_neg herr]
    rfl
  have hmemk : week m.ts ∈ sortedWeekKeys week l :=
    mem_sortedWeekKeys.mpr ⟨m, mem_of_getLast?_eq hm, rfl⟩
  by_cases hall : (sortedWeekKeys week l).all
      (fun k => groupCollapses (weekGroup week l k)) = true
  · -- every group collapses: one valid first row per group
    have hK : rows_to_keep week l
        = (((sortedWeekKeys week l).map (fun k => (weekGroup week l k).take 1)).flatten).map
            (fun r => (⟨some r.ts, some r.price⟩ : KeptRow)) := by
      unfold rows_to_keep
      rw [if_pos hall]
    have hfinal : (clean_price_history_product week l false).1
        = ((sortedWeekKeys week l).map (fun k => (weekGroup week l k).take 1)).flatten := by
      rw [hpipe, hK]
      exact filterMap_keptEntry_map _
    have hu : ((weekGroup week l (week m.ts)).map PriceEntry.price).dedup.length = 1 := by
      have hc := List.all_eq_true.mp hall (week m.ts) hmemk
      unfold groupCollapses at hc
      exact beq_iff_eq.mp hc
    constructor
    · rw [hfinal]
      have hX := getLast?_price_flatten_groups week hmono l hl m hm
          (fun k => (weekGroup week l k).take 1)
          (fun k hk => take_one_ne_nil (weekGroup_ne_nil_of_mem_keys hk))
          (weekGroup_take_one_price week l m hm hu)
      show ((((sortedWeekKeys week l).map
          (fun k => (weekGroup week l k).take 1)).flatten).getLast?).map PriceEntry.price
        = l.getLast?.map PriceEntry.price
      rw [hX, hm]
      rfl
    · rw [hfinal]
      exact pairwise_flatten_groups week hmono l hl _ (fun k => List.take_sublist 1 _)
  · by_cases hnone : (sortedWeekKeys week l).all
        (fun k => !groupCollapses (weekGroup week l k)) = true
    · -- no group collapses: every row kept
      have hK : rows_to_keep week l
          = (((sortedWeekKeys week l).map (fun k => weekGroup week l k)).flatten).map
              (fun r => (⟨some r.ts, some r.price⟩ : KeptRow)) := by
        unfold rows_to_keep
        rw [if_neg hall, if_pos hnone]
      have hfinal : (clean_price_history_product week l false).1
          = ((sortedWeekKeys week l).map (fun k => weekGroup week l k)).flatten := by
        rw [hpipe, hK]
        exact filterMap_keptEntry_map _
      constructor
      · rw [hfinal]
        have hX := getLast?_price_flatten_groups week hmono l hl m hm
            (fun k => weekGroup week l k)
            (fun k hk => weekGroup_ne_nil_of_mem_keys hk)
            (weekGroup_getLast?_price week l m hm)
        show ((((sortedWeekKeys week l).map
            (fun k => weekGroup week l k)).flatten).getLast?).map PriceEntry.price
          = l.getLast?.map PriceEntry.price
        rw [hX, hm]
        rfl
      · rw [hfinal]
        exact pairwise_flatten_groups week hmono l hl _ (fun k => List.Sublist.refl _)
    · -- mixed returns: a NaN block exists, contradicting the error-free run
      exfalso
      have hex : ∃ k ∈ sortedWeekKeys week l,
          groupCollapses (weekGroup week l k) = true := by
        by_contra hno
        apply hnone
        rw [List.all_eq_true]
        intro k hk
        cases hck : groupCollapses (weekGroup week l k) with
        | false => rfl
        | true => exact absurd ⟨k, hk, hck⟩ hno
      obtain ⟨k, hk, hck⟩ := hex
      have hK : rows_to_keep week l
          = ((sortedWeekKeys week l).map (fun k =>
              if groupCollapses (weekGroup week l k) then
                List.replicate dfColumnCount (⟨none, none⟩ : KeptRow)
              else (weekGroup week l k).map
                (fun r => (⟨some r.ts, some r.price⟩ : KeptRow)))).flatten := by
        unfold rows_to_keep
        rw [if_neg hall, if_neg hnone]
      have hmem : (⟨none, none⟩ : KeptRow) ∈ rows_to_keep week l := by
        rw [hK, List.mem_flatten]
        refine ⟨List.replicate dfColumnCount (⟨none, none⟩ : KeptRow), ?_, ?_⟩
        · rw [List.mem_map]
          exact ⟨k, hk, by rw [if_pos hck]⟩
        · exact List.mem_replicate.mpr ⟨by decide, rfl⟩
      apply herr
      rw [List.any_eq_true]
      exact ⟨⟨none, none⟩, hmem, by decide⟩

/-- Witness for C10: on the three-row series, whose weeks all collapse, the
replacement completes, the latest price is preserved and the replaced
series is chronological. -/
theorem compaction_preserves_latest_witness :
    (get_latest_price_entry (clean_price_history_product (fun t => t / 7)
        [⟨0, 10⟩, ⟨1, 10⟩, ⟨8, 5⟩] false).1).map PriceEntry.price
      = (get_latest_price_entry [⟨0, 10⟩, ⟨1, 10⟩, ⟨8, 5⟩]).map PriceEntry.price
    ∧ List.Pairwise tsLE (clean_price_history_product (fun t => t / 7)
        [⟨0, 10⟩, ⟨1, 10⟩, ⟨8, 5⟩] false).1 :=
  compaction_preserves_latest_price (fun t => t / 7)
    (fun a b hab => Nat.div_le_div_right hab) [⟨0, 10⟩, ⟨1, 10⟩, ⟨8, 5⟩]
    (by decide) (by decide) (by decide)

end PriceWatcher
